import Mathlib

/-!
Verification of the `lru` package (cjsaylor/goutil): a fixed-capacity
least-recently-used cache built from a doubly linked recency list
(`container/list`) and a lookup map from key to list element.

The embedding models the current implementation (`lru/lru.go`, the version
with a mutex in every public operation, a `return` in the update branch of
`Set`, and a `ListKeys` method).  Go's `*list.Element` pointers are modelled
as elements carrying a unique numeric identity `id`; the Go map
`map[interface{}]*list.Element` is modelled as an association list from keys
to element identities.  The caller-supplied eviction callback is modelled
observationally: each operation that may invoke it returns the list of
`(key, value)` pairs it was invoked with, in order.  Go's dynamically typed
`interface{}` return values are modelled by the sum type `GoVal`, which
distinguishes `nil`, a `*entry` reference, and a plain stored value.
The mutex is not modelled: all operations are sequential functions.
-/

set_option linter.unusedSectionVars false

namespace Lru

/-- Model of the Go struct `entry { key, value interface{} }`. -/
structure entry (K V : Type) where
  key : K
  value : V
deriving DecidableEq

/-- Model of `*list.Element`: the payload (`Value`, always a `*entry` here)
together with a numeric identity standing for the pointer. -/
structure Element (K V : Type) where
  id : Nat
  value : entry K V
deriving DecidableEq

/-- Model of a Go `interface{}` result: `nil`, a `*entry` reference, or a
stored value of the caller's value type. -/
inductive GoVal (K V : Type) where
  | goNil : GoVal K V
  | entryRef : entry K V → GoVal K V
  | val : V → GoVal K V
deriving DecidableEq

/-- Model of the Go struct `Cache`: the recency list `queue` (front = most
recently used), the `lookup` map from key to element identity, the fixed
`capacity` (a Go `int`), and a counter supplying fresh element identities. -/
structure Cache (K V : Type) where
  queue : List (Element K V)
  lookup : List (K × Nat)
  capacity : Int
  nextId : Nat
deriving DecidableEq

variable {K V : Type} [DecidableEq K] [DecidableEq V]

/-- Go map read `c.lookup[key]`. -/
def mapGet (m : List (K × Nat)) (k : K) : Option Nat :=
  (m.find? fun p => decide (p.1 = k)).map Prod.snd

/-- Go map write `c.lookup[key] = item`: overwrites any existing binding. -/
def mapSet (m : List (K × Nat)) (k : K) (id : Nat) : List (K × Nat) :=
  (k, id) :: m.filter fun p => decide (p.1 ≠ k)

/-- Go map delete `delete(c.lookup, key)`. -/
def mapDel (m : List (K × Nat)) (k : K) : List (K × Nat) :=
  m.filter fun p => decide (p.1 ≠ k)

/-- Dereference an element identity in the recency list (reading through a
`*list.Element` pointer). -/
def findElem (q : List (Element K V)) (id : Nat) : Option (Element K V) :=
  q.find? fun el => decide (el.id = id)

/-- Source: `NewCache(capacity, onEviction)`.  The callback is modelled
observationally, so only the capacity is stored. -/
def NewCache (K V : Type) (capacity : Int) : Cache K V :=
  { queue := [], lookup := [], capacity := capacity, nextId := 0 }

/-- Source: `c.queue.MoveToFront(item)` from `container/list`: moves the
element with the given identity to the front; no-op if it is not in the
list. -/
def Cache.moveToFront (c : Cache K V) (id : Nat) : Cache K V :=
  match findElem c.queue id with
  | some el => { c with queue := el :: c.queue.filter fun e => decide (e.id ≠ id) }
  | none => c

/-- Replace the payload of the element with the given identity, leaving other
elements unchanged. -/
def updElem (id : Nat) (e : entry K V) (x : Element K V) : Element K V :=
  if x.id = id then { x with value := e } else x

/-- Source: `item.Value = &entry{key, value}` through the pointer held in the
lookup map: replaces the payload of the element with the given identity. -/
def Cache.setValue (c : Cache K V) (id : Nat) (e : entry K V) : Cache K V :=
  { c with queue := c.queue.map (updElem id e) }

/-- Source: `item := c.queue.PushFront(&entry{key, value})`: prepends a fresh
element and returns its identity. -/
def Cache.pushFront (c : Cache K V) (e : entry K V) : Cache K V × Nat :=
  ({ c with queue := { id := c.nextId, value := e } :: c.queue, nextId := c.nextId + 1 },
   c.nextId)

/-- Source: the private `removeOldest`.  `c.queue.Back()` is `getLast?`
(`nil` exactly when `c.queue.Len() == 0`); on a non-empty queue it removes
the back element from the list, deletes its key from the lookup map, invokes
the eviction callback with the evicted `(key, value)` pair (recorded in the
returned event list), and returns the evicted value with `true`. -/
def Cache.removeOldest (c : Cache K V) : Cache K V × (GoVal K V × Bool) × List (K × V) :=
  match c.queue.getLast? with
  | none => (c, (GoVal.goNil, false), [])
  | some tail =>
      ({ c with queue := c.queue.filter fun e => decide (e.id ≠ tail.id),
                lookup := mapDel c.lookup tail.value.key },
       (GoVal.val tail.value.value, true),
       [(tail.value.key, tail.value.value)])

/-- Source: `Set`.  If the key is present: move its element to the front and
replace the element's payload; no callback.  Otherwise: push a fresh element
to the front, bind the key to it, and if the queue length now exceeds the
capacity, call `removeOldest`, whose callback events are reported. -/
def Cache.Set (c : Cache K V) (key : K) (value : V) : Cache K V × List (K × V) :=
  match mapGet c.lookup key with
  | some id => ((c.moveToFront id).setValue id { key := key, value := value }, [])
  | none =>
      let p := c.pushFront { key := key, value := value }
      let c2 : Cache K V := { p.1 with lookup := mapSet p.1.lookup key p.2 }
      if (c2.queue.length : Int) > c2.capacity then
        let r := c2.removeOldest
        (r.1, r.2.2)
      else
        (c2, [])

/-- Source: `Get`.  If the key is present: move its element to the front and
return `item.Value` — which in the source is the `*entry` itself, not the
stored value — with `true`.  Otherwise return `nil` with `false`.  The inner
`none` branch is unreachable under the representation invariant and stands
for the dangling-pointer read Lean cannot express. -/
def Cache.Get (c : Cache K V) (key : K) : Cache K V × GoVal K V × Bool :=
  match mapGet c.lookup key with
  | some id =>
      match findElem c.queue id with
      | some el => (c.moveToFront id, GoVal.entryRef el.value, true)
      | none => (c.moveToFront id, GoVal.goNil, true)
  | none => (c, GoVal.goNil, false)

/-- Source: `Remove`.  If the key is present: remove its element from the
list, delete the key from the lookup map, and return
`item.Value.(*entry).value` with `true`; the eviction callback is never
invoked (empty event list).  Otherwise return `nil` with `false`. -/
def Cache.Remove (c : Cache K V) (key : K) : Cache K V × (GoVal K V × Bool) × List (K × V) :=
  match mapGet c.lookup key with
  | some id =>
      let c2 : Cache K V := { c with queue := c.queue.filter fun e => decide (e.id ≠ id),
                                     lookup := mapDel c.lookup key }
      match findElem c.queue id with
      | some el => (c2, (GoVal.val el.value.value, true), [])
      | none => (c2, (GoVal.goNil, true), [])
  | none => (c, (GoVal.goNil, false), [])

/-- Source: `RemoveOldest`: takes the lock and delegates to the private
`removeOldest`. -/
def Cache.RemoveOldest (c : Cache K V) : Cache K V × (GoVal K V × Bool) × List (K × V) :=
  c.removeOldest

/-- Source: the collection loop of `ListKeys`, walking the list from
`Front()` via `Next()` and collecting each element's key. -/
def listKeysFrom : List (Element K V) → List K
  | [] => []
  | el :: rest => el.value.key :: listKeysFrom rest

/-- Source: `ListKeys`: keys of the recency list, most recently used
first. -/
def Cache.ListKeys (c : Cache K V) : List K :=
  listKeysFrom c.queue

/-- Fold a sequence of `Set` calls over a cache (states only). -/
def applySets (c : Cache K V) (ops : List (K × V)) : Cache K V :=
  ops.foldl (fun acc p => (acc.Set p.1 p.2).1) c

/-- Representation invariant tying the recency list and the lookup map
together: element identities are distinct and below the freshness counter,
keys in the list are distinct, keys in the lookup map are distinct, every
binding points at an element of the list with that identity and key, and
every element of the list is bound in the map. -/
def Wf (c : Cache K V) : Prop :=
  (c.queue.map Element.id).Nodup ∧
  (∀ el ∈ c.queue, el.id < c.nextId) ∧
  (c.queue.map fun el => el.value.key).Nodup ∧
  (c.lookup.map Prod.fst).Nodup ∧
  (∀ p ∈ c.lookup, ∃ el ∈ c.queue, el.id = p.2 ∧ el.value.key = p.1) ∧
  (∀ el ∈ c.queue, (el.value.key, el.id) ∈ c.lookup)

instance (c : Cache K V) : Decidable (Wf c) := by
  unfold Wf; infer_instance

/-! ### Lemmas about the lookup-map model -/

theorem mem_mapDel {m : List (K × Nat)} {k : K} {p : K × Nat} :
    p ∈ mapDel m k ↔ p ∈ m ∧ p.1 ≠ k := by
  simp [mapDel, List.mem_filter]

theorem mapSet_eq_cons (m : List (K × Nat)) (k : K) (id : Nat) :
    mapSet m k id = (k, id) :: mapDel m k := rfl

theorem mem_mapSet {m : List (K × Nat)} {k : K} {id : Nat} {p : K × Nat} :
    p ∈ mapSet m k id ↔ p = (k, id) ∨ (p ∈ m ∧ p.1 ≠ k) := by
  rw [mapSet_eq_cons, List.mem_cons, mem_mapDel]

theorem mapDel_keys_nodup {m : List (K × Nat)} {k : K}
    (h : (m.map Prod.fst).Nodup) : ((mapDel m k).map Prod.fst).Nodup :=
  List.Nodup.sublist ((List.filter_sublist m).map Prod.fst) h

theorem mapSet_keys_nodup {m : List (K × Nat)} {k : K} {id : Nat}
    (h : (m.map Prod.fst).Nodup) : ((mapSet m k id).map Prod.fst).Nodup := by
  rw [mapSet_eq_cons, List.map_cons]
  refine List.nodup_cons.mpr ⟨?_, mapDel_keys_nodup h⟩
  intro hk
  obtain ⟨p, hp, hpk⟩ := List.mem_map.mp hk
  exact (mem_mapDel.mp hp).2 hpk

theorem mapGet_nil {k : K} : mapGet ([] : List (K × Nat)) k = none := rfl

theorem mapGet_cons {p : K × Nat} {m : List (K × Nat)} {k : K} :
    mapGet (p :: m) k = if p.1 = k then some p.2 else mapGet m k := by
  unfold mapGet
  by_cases hp : p.1 = k
  · rw [List.find?_cons_of_pos _ (by simpa using hp), if_pos hp]
    rfl
  · rw [List.find?_cons_of_neg _ (by simpa using hp), if_neg hp]

theorem mapGet_eq_some_mem {m : List (K × Nat)} {k : K} {id : Nat}
    (h : mapGet m k = some id) : (k, id) ∈ m := by
  unfold mapGet at h
  cases hf : m.find? (fun p => decide (p.1 = k)) with
  | none => rw [hf] at h; simp at h
  | some p =>
      rw [hf] at h
      have hp1 : p.1 = k := by simpa using List.find?_some hf
      have hp2 : p.2 = id := by simpa using h
      have hm := List.mem_of_find?_eq_some hf
      obtain ⟨p1, p2⟩ := p
      cases hp1
      cases hp2
      exact hm

theorem mapGet_eq_none_iff {m : List (K × Nat)} {k : K} :
    mapGet m k = none ↔ ∀ p ∈ m, p.1 ≠ k := by
  simp [mapGet, List.find?_eq_none]

theorem mapGet_of_mem {m : List (K × Nat)} {p : K × Nat}
    (hnd : (m.map Prod.fst).Nodup) (hp : p ∈ m) : mapGet m p.1 = some p.2 := by
  cases hf : m.find? (fun q => decide (q.1 = p.1)) with
  | none =>
      rw [List.find?_eq_none] at hf
      have hfalse : False := by simpa using hf p hp
      exact hfalse.elim
  | some q =>
      have hq1 : q.1 = p.1 := by simpa using List.find?_some hf
      have hqm := List.mem_of_find?_eq_some hf
      have hqp : q = p := List.inj_on_of_nodup_map hnd hqm hp hq1
      subst hqp
      simp [mapGet, hf]

theorem mapGet_mapDel_self {m : List (K × Nat)} {k : K} :
    mapGet (mapDel m k) k = none := by
  rw [mapGet_eq_none_iff]
  intro p hp
  exact (mem_mapDel.mp hp).2

theorem mapDel_cons {p : K × Nat} {m : List (K × Nat)} {k : K} :
    mapDel (p :: m) k = if p.1 = k then mapDel m k else p :: mapDel m k := by
  unfold mapDel
  by_cases hp : p.1 = k
  · rw [List.filter_cons_of_neg (by simpa using hp), if_pos hp]
  · rw [List.filter_cons_of_pos (by simpa using hp), if_neg hp]

theorem mapGet_mapDel_ne {m : List (K × Nat)} {k k2 : K} (h : k2 ≠ k) :
    mapGet (mapDel m k) k2 = mapGet m k2 := by
  induction m with
  | nil => rfl
  | cons p m ih =>
      rw [mapDel_cons]
      by_cases hpk : p.1 = k
      · rw [if_pos hpk, ih, mapGet_cons, if_neg (by rw [hpk]; exact fun hh => h hh.symm)]
      · rw [if_neg hpk, mapGet_cons, mapGet_cons, ih]

theorem mapGet_mapSet_self {m : List (K × Nat)} {k : K} {id : Nat} :
    mapGet (mapSet m k id) k = some id := by
  rw [mapSet_eq_cons, mapGet_cons, if_pos rfl]

theorem mapGet_mapSet_ne {m : List (K × Nat)} {k k2 : K} {id : Nat} (h : k2 ≠ k) :
    mapGet (mapSet m k id) k2 = mapGet m k2 := by
  rw [mapSet_eq_cons, mapGet_cons, if_neg (fun hh : k = k2 => h hh.symm), mapGet_mapDel_ne h]

/-! ### Lemmas about element search and identities -/

theorem findElem_eq_some {q : List (Element K V)} {id : Nat} {el : Element K V}
    (h : findElem q id = some el) : el ∈ q ∧ el.id = id :=
  ⟨List.mem_of_find?_eq_some h, by simpa using List.find?_some h⟩

theorem findElem_eq_none_iff {q : List (Element K V)} {id : Nat} :
    findElem q id = none ↔ ∀ el ∈ q, el.id ≠ id := by
  simp [findElem, List.find?_eq_none]

theorem id_inj {q : List (Element K V)} (hnd : (q.map Element.id).Nodup)
    {a b : Element K V} (ha : a ∈ q) (hb : b ∈ q) (h : a.id = b.id) : a = b :=
  List.inj_on_of_nodup_map hnd ha hb h

theorem key_inj {q : List (Element K V)} (hnd : (q.map fun el => el.value.key).Nodup)
    {a b : Element K V} (ha : a ∈ q) (hb : b ∈ q) (h : a.value.key = b.value.key) : a = b :=
  List.inj_on_of_nodup_map hnd ha hb h

theorem findElem_of_mem {q : List (Element K V)} {el : Element K V}
    (hnd : (q.map Element.id).Nodup) (hel : el ∈ q) : findElem q el.id = some el := by
  cases hf : findElem q el.id with
  | none => exact absurd rfl (findElem_eq_none_iff.mp hf el hel)
  | some el2 =>
      obtain ⟨hm2, hid2⟩ := findElem_eq_some hf
      rw [id_inj hnd hm2 hel hid2]

/-! ### Consequences of the representation invariant -/

theorem not_mem_key_of_mapGet_none {c : Cache K V} (h : Wf c) {k : K}
    (hn : mapGet c.lookup k = none) : ∀ el ∈ c.queue, el.value.key ≠ k := by
  intro el hel hk
  obtain ⟨_, _, _, _, _, h6⟩ := h
  have hmem := h6 el hel
  rw [hk] at hmem
  exact mapGet_eq_none_iff.mp hn _ hmem rfl

theorem mapGet_some_elem {c : Cache K V} (h : Wf c) {k : K} {id : Nat}
    (hs : mapGet c.lookup k = some id) :
    ∃ el ∈ c.queue, el.id = id ∧ el.value.key = k := by
  obtain ⟨_, _, _, _, h5, _⟩ := h
  exact h5 (k, id) (mapGet_eq_some_mem hs)

/-! ### Removing one element preserves the invariant -/

theorem wf_removeElem {c : Cache K V} (h : Wf c) {el : Element K V} (hel : el ∈ c.queue) :
    Wf { c with queue := c.queue.filter fun e => decide (e.id ≠ el.id),
                lookup := mapDel c.lookup el.value.key } := by
  obtain ⟨h1, h2, h3, h4, h5, h6⟩ := h
  refine ⟨?_, ?_, ?_, mapDel_keys_nodup h4, ?_, ?_⟩
  · exact List.Nodup.sublist ((List.filter_sublist _).map _) h1
  · intro e he
    exact h2 e (List.mem_filter.mp he).1
  · exact List.Nodup.sublist ((List.filter_sublist _).map _) h3
  · intro p hp
    obtain ⟨hpm, hpk⟩ := mem_mapDel.mp hp
    obtain ⟨e, hem, heid, hekey⟩ := h5 p hpm
    refine ⟨e, List.mem_filter.mpr ⟨hem, ?_⟩, heid, hekey⟩
    simp only [decide_eq_true_eq]
    intro hid
    have heq : e = el := id_inj h1 hem hel hid
    rw [heq] at hekey
    exact hpk hekey.symm
  · intro e he
    obtain ⟨hem, hne⟩ := List.mem_filter.mp he
    simp only [decide_eq_true_eq] at hne
    refine mem_mapDel.mpr ⟨h6 e hem, ?_⟩
    intro hk
    have heq : e = el := key_inj h3 hem hel hk
    exact hne (by rw [heq])

/-! ### Characterisation of removeOldest -/

theorem removeOldest_concat {c : Cache K V} (h : Wf c) {l : List (Element K V)}
    {a : Element K V} (hq : c.queue = l ++ [a]) :
    c.removeOldest =
      ({ c with queue := l, lookup := mapDel c.lookup a.value.key },
       (GoVal.val a.value.value, true),
       [(a.value.key, a.value.value)]) := by
  obtain ⟨h1, _, _, _, _, _⟩ := h
  have hlast : c.queue.getLast? = some a := by rw [hq]; exact List.getLast?_concat l
  have hnotin : a.id ∉ l.map Element.id := by
    rw [hq, List.map_append] at h1
    have := List.Nodup.sublist (List.sublist_append_right (l.map Element.id) _) h1
    intro hin
    rcases List.nodup_append.mp h1 with ⟨_, _, hdisj⟩
    exact hdisj hin (by simp)
  have hfilter : (c.queue.filter fun e => decide (e.id ≠ a.id)) = l := by
    rw [hq, List.filter_append]
    have hl : l.filter (fun e => decide (e.id ≠ a.id)) = l := by
      apply List.filter_eq_self.mpr
      intro e he
      simp only [decide_eq_true_eq]
      intro hid
      exact hnotin (hid ▸ List.mem_map_of_mem Element.id he)
    have ha : ([a].filter fun e => decide (e.id ≠ a.id)) = [] := by simp
    rw [hl, ha, List.append_nil]
  unfold Cache.removeOldest
  rw [hlast]
  dsimp only
  rw [hfilter]

theorem wf_removeOldest {c : Cache K V} (h : Wf c) : Wf c.removeOldest.1 := by
  cases hl : c.queue.getLast? with
  | none =>
      unfold Cache.removeOldest
      rw [hl]
      exact h
  | some tail =>
      obtain ⟨l, hq⟩ := List.getLast?_eq_some_iff.mp hl
      have htm : tail ∈ c.queue := by rw [hq]; simp
      rw [removeOldest_concat h hq]
      have hres := wf_removeElem h htm
      have hfilter : (c.queue.filter fun e => decide (e.id ≠ tail.id)) = l := by
        have := removeOldest_concat h hq
        unfold Cache.removeOldest at this
        rw [hl] at this
        have hqeq := congrArg (fun x => x.1.queue) this
        simpa using hqeq
      rw [hfilter] at hres
      exact hres

/-! ### moveToFront preserves the invariant -/

theorem moveToFront_perm {c : Cache K V} (h1 : (c.queue.map Element.id).Nodup) (id : Nat) :
    (c.moveToFront id).queue.Perm c.queue := by
  unfold Cache.moveToFront
  cases hf : findElem c.queue id with
  | none => exact List.Perm.refl _
  | some el =>
      obtain ⟨hm, hid⟩ := findElem_eq_some hf
      subst hid
      have hnd : c.queue.Nodup := List.Nodup.of_map _ h1
      have herase : c.queue.erase el = c.queue.filter (fun e => e != el) :=
        hnd.erase_eq_filter el
      have hfe : (c.queue.filter fun e => decide (e.id ≠ el.id)) =
          c.queue.filter (fun e => e != el) := by
        apply List.filter_congr
        intro x hx
        by_cases hxe : x = el
        · subst hxe; simp
        · have hxid : x.id ≠ el.id := fun hid2 => hxe (id_inj h1 hx hm hid2)
          have l1 : decide (x.id ≠ el.id) = true := by simpa using hxid
          have l2 : (x != el) = true := by simpa using hxe
          rw [l1, l2]
      show (el :: c.queue.filter fun e => decide (e.id ≠ el.id)).Perm c.queue
      rw [hfe, ← herase]
      exact (List.perm_cons_erase hm).symm

theorem moveToFront_queue_eq {c : Cache K V} {id : Nat} :
    c.moveToFront id = { c with queue := (c.moveToFront id).queue } := by
  unfold Cache.moveToFront
  cases findElem c.queue id <;> rfl

theorem wf_congr_perm {c : Cache K V} {q2 : List (Element K V)} (h : Wf c)
    (hp : q2.Perm c.queue) : Wf { c with queue := q2 } := by
  obtain ⟨h1, h2, h3, h4, h5, h6⟩ := h
  refine ⟨?_, ?_, ?_, h4, ?_, ?_⟩
  · exact ((hp.map Element.id).nodup_iff).mpr h1
  · intro e he
    exact h2 e (hp.mem_iff.mp he)
  · exact ((hp.map _).nodup_iff).mpr h3
  · intro p hpm
    obtain ⟨e, hem, hi, hk⟩ := h5 p hpm
    exact ⟨e, hp.mem_iff.mpr hem, hi, hk⟩
  · intro e he
    exact h6 e (hp.mem_iff.mp he)

theorem wf_moveToFront {c : Cache K V} (h : Wf c) (id : Nat) : Wf (c.moveToFront id) := by
  rw [moveToFront_queue_eq]
  exact wf_congr_perm h (moveToFront_perm h.1 id)

/-! ### setValue with an unchanged key preserves the invariant -/

theorem updElem_id (id : Nat) (e : entry K V) (x : Element K V) :
    (updElem id e x).id = x.id := by
  unfold updElem
  by_cases hx : x.id = id <;> simp [hx]

theorem setValue_ids (c : Cache K V) (id : Nat) (e : entry K V) :
    (c.setValue id e).queue.map Element.id = c.queue.map Element.id := by
  unfold Cache.setValue
  rw [List.map_map]
  exact List.map_congr_left fun x _ => updElem_id id e x

theorem setValue_length (c : Cache K V) (id : Nat) (e : entry K V) :
    (c.setValue id e).queue.length = c.queue.length := by
  simp [Cache.setValue]

theorem wf_setValue {c : Cache K V} (h : Wf c) {id : Nat} {el : Element K V}
    (hel : el ∈ c.queue) (hid : el.id = id) {e : entry K V} (hkey : e.key = el.value.key) :
    Wf (c.setValue id e) := by
  obtain ⟨h1, h2, h3, h4, h5, h6⟩ := h
  have hfkey : ∀ y ∈ c.queue, (updElem id e y).value.key = y.value.key := by
    intro y hy
    unfold updElem
    by_cases hyid : y.id = id
    · have hye : y = el := id_inj h1 hy hel (by rw [hyid, hid])
      subst hye
      simp [hyid, hkey]
    · simp [hyid]
  refine ⟨?_, ?_, ?_, h4, ?_, ?_⟩
  · rw [setValue_ids]; exact h1
  · intro x hx
    obtain ⟨y, hy, hxy⟩ := List.mem_map.mp hx
    subst hxy
    rw [updElem_id]
    exact h2 y hy
  · show ((c.queue.map (updElem id e)).map fun x => x.value.key).Nodup
    rw [List.map_map]
    have : (c.queue.map fun x => (updElem id e x).value.key) =
        c.queue.map fun x => x.value.key :=
      List.map_congr_left fun x hx => hfkey x hx
    rw [show (((fun x => x.value.key) ∘ updElem id e) : Element K V → K) =
        fun x => (updElem id e x).value.key from rfl, this]
    exact h3
  · intro p hp
    obtain ⟨y, hy, hyid, hykey⟩ := h5 p hp
    refine ⟨updElem id e y, List.mem_map_of_mem _ hy, ?_, ?_⟩
    · rw [updElem_id]; exact hyid
    · rw [hfkey y hy]; exact hykey
  · intro x hx
    obtain ⟨y, hy, hxy⟩ := List.mem_map.mp hx
    subst hxy
    rw [updElem_id, hfkey y hy]
    exact h6 y hy

/-! ### Invariant preservation for the public operations -/

theorem wf_NewCache (K V : Type) [DecidableEq K] (cap : Int) : Wf (NewCache K V cap) := by
  refine ⟨?_, ?_, ?_, ?_, ?_, ?_⟩ <;> simp [NewCache]

theorem wf_push {c : Cache K V} (h : Wf c) {k : K} (hm : mapGet c.lookup k = none) (v : V) :
    Wf { queue := { id := c.nextId, value := ⟨k, v⟩ } :: c.queue,
         lookup := mapSet c.lookup k c.nextId,
         capacity := c.capacity, nextId := c.nextId + 1 } := by
  have hkabs : ∀ el ∈ c.queue, el.value.key ≠ k := not_mem_key_of_mapGet_none h hm
  obtain ⟨h1, h2, h3, h4, h5, h6⟩ := h
  refine ⟨?_, ?_, ?_, mapSet_keys_nodup h4, ?_, ?_⟩
  · rw [List.map_cons]
    refine List.nodup_cons.mpr ⟨?_, h1⟩
    intro hin
    obtain ⟨e2, he2, hid2⟩ := List.mem_map.mp hin
    exact absurd hid2 (Nat.ne_of_lt (h2 e2 he2))
  · intro e he
    rcases List.mem_cons.mp he with rfl | he2
    · exact Nat.lt_succ_self _
    · exact Nat.lt_trans (h2 e he2) (Nat.lt_succ_self _)
  · rw [List.map_cons]
    refine List.nodup_cons.mpr ⟨?_, h3⟩
    intro hin
    obtain ⟨e2, he2, hk2⟩ := List.mem_map.mp hin
    exact hkabs e2 he2 hk2
  · intro p hp
    rcases mem_mapSet.mp hp with rfl | ⟨hpm, hpk⟩
    · exact ⟨⟨c.nextId, ⟨k, v⟩⟩, List.mem_cons_self _ _, rfl, rfl⟩
    · obtain ⟨e, hem, hi, hk⟩ := h5 p hpm
      exact ⟨e, List.mem_cons_of_mem _ hem, hi, hk⟩
  · intro e he
    rcases List.mem_cons.mp he with rfl | he2
    · exact mem_mapSet.mpr (Or.inl rfl)
    · exact mem_mapSet.mpr (Or.inr ⟨h6 e he2, fun hh => hkabs e he2 hh⟩)

theorem wf_Set {c : Cache K V} (h : Wf c) (k : K) (v : V) : Wf (c.Set k v).1 := by
  unfold Cache.Set
  cases hm : mapGet c.lookup k with
  | some id =>
      obtain ⟨el, hel, hid, hkey⟩ := mapGet_some_elem h hm
      have hwf2 := wf_moveToFront h id
      have hel2 : el ∈ (c.moveToFront id).queue := (moveToFront_perm h.1 id).mem_iff.mpr hel
      exact wf_setValue hwf2 hel2 hid hkey.symm
  | none =>
      dsimp only [Cache.pushFront]
      split
      · exact wf_removeOldest (wf_push h hm v)
      · exact wf_push h hm v

theorem wf_Get {c : Cache K V} (h : Wf c) (k : K) : Wf (c.Get k).1 := by
  unfold Cache.Get
  cases mapGet c.lookup k with
  | some id =>
      dsimp only
      cases findElem c.queue id <;> exact wf_moveToFront h id
  | none => exact h

theorem wf_Remove {c : Cache K V} (h : Wf c) (k : K) : Wf (c.Remove k).1 := by
  unfold Cache.Remove
  cases hm : mapGet c.lookup k with
  | none => exact h
  | some id =>
      obtain ⟨el, hel, hid, hkey⟩ := mapGet_some_elem h hm
      have h2 := wf_removeElem h hel
      rw [hid, hkey] at h2
      dsimp only
      cases findElem c.queue id <;> exact h2

theorem wf_RemoveOldest {c : Cache K V} (h : Wf c) : Wf c.RemoveOldest.1 :=
  wf_removeOldest h

/-! ### Capacity and length bookkeeping -/

theorem removeOldest_capacity (c : Cache K V) : c.removeOldest.1.capacity = c.capacity := by
  unfold Cache.removeOldest
  cases c.queue.getLast? <;> rfl

theorem moveToFront_capacity (c : Cache K V) (id : Nat) :
    (c.moveToFront id).capacity = c.capacity := by
  unfold Cache.moveToFront
  cases findElem c.queue id <;> rfl

theorem Set_capacity (c : Cache K V) (k : K) (v : V) : (c.Set k v).1.capacity = c.capacity := by
  unfold Cache.Set
  cases mapGet c.lookup k with
  | some id =>
      show (Cache.setValue _ _ _).capacity = _
      unfold Cache.setValue
      rw [moveToFront_capacity]
  | none =>
      dsimp only [Cache.pushFront]
      split
      · rw [removeOldest_capacity]
      · rfl

theorem moveToFront_length {c : Cache K V} (h1 : (c.queue.map Element.id).Nodup) (id : Nat) :
    (c.moveToFront id).queue.length = c.queue.length :=
  (moveToFront_perm h1 id).length_eq

theorem Set_length_le {c : Cache K V} (h : Wf c)
    (hle : (c.queue.length : Int) ≤ c.capacity) (k : K) (v : V) :
    ((c.Set k v).1.queue.length : Int) ≤ (c.Set k v).1.capacity := by
  rw [Set_capacity]
  unfold Cache.Set
  cases hm : mapGet c.lookup k with
  | some id =>
      show ((Cache.setValue _ _ _).queue.length : Int) ≤ _
      rw [setValue_length, moveToFront_length h.1]
      exact hle
  | none =>
      dsimp only [Cache.pushFront]
      split
      · rcases List.eq_nil_or_concat' c.queue with hq | ⟨l2, a, hq⟩
        · have hconc : ({ id := c.nextId, value := ⟨k, v⟩ } : Element K V) :: c.queue =
              [] ++ [{ id := c.nextId, value := ⟨k, v⟩ }] := by rw [hq]; rfl
          rw [removeOldest_concat (wf_push h hm v) hconc]
          rw [hq] at hle
          simpa using hle
        · have hconc : ({ id := c.nextId, value := ⟨k, v⟩ } : Element K V) :: c.queue =
              ({ id := c.nextId, value := ⟨k, v⟩ } :: l2) ++ [a] := by rw [hq]; rfl
          rw [removeOldest_concat (wf_push h hm v) hconc]
          have : c.queue.length = l2.length + 1 := by rw [hq]; simp
          simp only [List.length_cons]
          rw [this] at hle
          simpa using hle
      · rename_i hng
        simp only [List.length_cons] at hng ⊢
        omega

/-! ### The front of the queue after a Set -/

theorem Set_events_update {c : Cache K V} {k : K} {id : Nat}
    (hm : mapGet c.lookup k = some id) (v : V) : (c.Set k v).2 = [] := by
  unfold Cache.Set
  rw [hm]

theorem Set_front {c : Cache K V} (h : Wf c) (hcap : 1 ≤ c.capacity) (k : K) (v : V) :
    ∃ id rest, (c.Set k v).1.queue = ⟨id, ⟨k, v⟩⟩ :: rest ∧
      mapGet (c.Set k v).1.lookup k = some id := by
  unfold Cache.Set
  cases hm : mapGet c.lookup k with
  | some id =>
      obtain ⟨el, hel, hid, hkey⟩ := mapGet_some_elem h hm
      have hf : findElem c.queue id = some el := by rw [← hid]; exact findElem_of_mem h.1 hel
      dsimp only
      unfold Cache.moveToFront
      rw [hf]
      unfold Cache.setValue
      refine ⟨id, (c.queue.filter fun e => decide (e.id ≠ id)).map (updElem id ⟨k, v⟩),
        ?_, hm⟩
      rw [List.map_cons]
      unfold updElem
      rw [if_pos hid]
      obtain ⟨i, ev⟩ := el
      simp only at hid
      rw [hid]
  | none =>
      dsimp only [Cache.pushFront]
      split
      · rename_i hgt
        have hne : c.queue ≠ [] := by
          intro hq
          rw [hq] at hgt
          simp at hgt
          omega
        obtain ⟨l2, a, hq⟩ := (List.eq_nil_or_concat' c.queue).resolve_left hne
        have hconc : ({ id := c.nextId, value := ⟨k, v⟩ } : Element K V) :: c.queue =
            ({ id := c.nextId, value := ⟨k, v⟩ } :: l2) ++ [a] := by rw [hq]; rfl
        rw [removeOldest_concat (wf_push h hm v) hconc]
        refine ⟨c.nextId, l2, rfl, ?_⟩
        have hka : a.value.key ≠ k := by
          apply not_mem_key_of_mapGet_none h hm
          rw [hq]
          simp
        show mapGet (mapDel (mapSet c.lookup k c.nextId) a.value.key) k = some c.nextId
        rw [mapGet_mapDel_ne (fun hh => hka hh.symm), mapGet_mapSet_self]
      · exact ⟨c.nextId, c.queue, rfl, mapGet_mapSet_self⟩

/-! ### Exactly one entry per present key -/

theorem count_key_eq_one {q : List (Element K V)}
    (hnd : (q.map fun el => el.value.key).Nodup)
    (hidnd : (q.map Element.id).Nodup)
    {el : Element K V} (hel : el ∈ q) :
    (q.filter fun e => decide (e.value.key = el.value.key)).length = 1 := by
  have hqnd : q.Nodup := List.Nodup.of_map _ hidnd
  have hperm : q.Perm (el :: q.erase el) := List.perm_cons_erase hel
  have hlen := (hperm.filter fun e => decide (e.value.key = el.value.key)).length_eq
  rw [hlen]
  rw [List.filter_cons_of_pos (by simp)]
  have herase : (q.erase el).filter (fun e => decide (e.value.key = el.value.key)) = [] := by
    apply List.filter_eq_nil_iff.mpr
    intro e he
    have hne : e ≠ el ∧ e ∈ q := (List.Nodup.mem_erase_iff hqnd).mp he
    simp only [decide_eq_true_eq]
    intro hk
    exact hne.1 (key_inj hnd hne.2 hel hk)
  rw [herase]
  rfl

/-! ### Folding sequences of Set calls -/

theorem applySets_nil (c : Cache K V) : applySets c [] = c := rfl

theorem applySets_cons (c : Cache K V) (p : K × V) (ops : List (K × V)) :
    applySets c (p :: ops) = applySets (c.Set p.1 p.2).1 ops := rfl

theorem applySets_wf_len {c : Cache K V} (h : Wf c)
    (hle : (c.queue.length : Int) ≤ c.capacity) (ops : List (K × V)) :
    Wf (applySets c ops) ∧
      ((applySets c ops).queue.length : Int) ≤ (applySets c ops).capacity := by
  induction ops generalizing c with
  | nil => exact ⟨h, hle⟩
  | cons p ops ih =>
      rw [applySets_cons]
      exact ih (wf_Set h p.1 p.2) (Set_length_le h hle p.1 p.2)

theorem applySets_capacity (c : Cache K V) (ops : List (K × V)) :
    (applySets c ops).capacity = c.capacity := by
  induction ops generalizing c with
  | nil => rfl
  | cons p ops ih =>
      rw [applySets_cons, ih, Set_capacity]

/-! ### Set on a fresh key without reaching capacity -/

theorem Set_insert_no_evict {c : Cache K V} {k : K} (hm : mapGet c.lookup k = none)
    (hlen : ((c.queue.length + 1 : Nat) : Int) ≤ c.capacity) (v : V) :
    c.Set k v = ({ queue := ⟨c.nextId, ⟨k, v⟩⟩ :: c.queue,
                   lookup := mapSet c.lookup k c.nextId,
                   capacity := c.capacity, nextId := c.nextId + 1 }, []) := by
  unfold Cache.Set
  rw [hm]
  dsimp only [Cache.pushFront]
  rw [if_neg]
  simp only [List.length_cons]
  omega

/-- With capacity zero and an empty cache, every `Set` pushes the fresh entry
and then immediately evicts that same entry again. -/
theorem Set_empty_zero (c : Cache K V) (hq : c.queue = []) (hl : c.lookup = [])
    (hc : c.capacity = 0) (k : K) (v : V) :
    c.Set k v = ({ queue := [], lookup := [], capacity := 0, nextId := c.nextId + 1 },
                 [(k, v)]) := by
  obtain ⟨q, l, cap, n⟩ := c
  simp only at hq hl hc
  subst hq; subst hl; subst hc
  unfold Cache.Set
  rw [show mapGet ([] : List (K × Nat)) k = none from rfl]
  dsimp only [Cache.pushFront]
  rw [if_pos (by simp)]
  unfold Cache.removeOldest
  simp [mapSet, mapDel]

theorem applySets_empty_zero (ops : List (K × V)) (c : Cache K V)
    (hq : c.queue = []) (hl : c.lookup = []) (hc : c.capacity = 0) :
    (applySets c ops).queue = [] ∧ (applySets c ops).lookup = [] ∧
      (applySets c ops).capacity = 0 := by
  induction ops generalizing c with
  | nil => exact ⟨hq, hl, hc⟩
  | cons p ops ih =>
      rw [applySets_cons, Set_empty_zero c hq hl hc p.1 p.2]
      exact ih _ rfl rfl rfl

/-! ### Symbolic evaluation of the three-insert scenario -/

theorem threeInserts (K V : Type) [DecidableEq K] [DecidableEq V]
    (a b c : K) (va vb vc : V) (hab : a ≠ b) (hac : a ≠ c) (hbc : b ≠ c) :
    ((((NewCache K V 3).Set a va).1.Set b vb).1.Set c vc).1 =
      { queue := [⟨2, ⟨c, vc⟩⟩, ⟨1, ⟨b, vb⟩⟩, ⟨0, ⟨a, va⟩⟩],
        lookup := [(c, 2), (b, 1), (a, 0)],
        capacity := 3, nextId := 3 } := by
  have e1 : (NewCache K V 3).Set a va =
      ({ queue := [⟨0, ⟨a, va⟩⟩], lookup := [(a, 0)], capacity := 3, nextId := 1 }, []) := by
    rw [Set_insert_no_evict mapGet_nil (by norm_num [NewCache]) va]
    rfl
  have hm2 : mapGet [(a, 0)] b = none := by
    rw [mapGet_cons, if_neg hab, mapGet_nil]
  have e2 : (Cache.Set
      { queue := [⟨0, ⟨a, va⟩⟩], lookup := [(a, 0)], capacity := 3, nextId := 1 } b vb) =
      ({ queue := [⟨1, ⟨b, vb⟩⟩, ⟨0, ⟨a, va⟩⟩], lookup := [(b, 1), (a, 0)], capacity := 3, nextId := 2 }, []) := by
    rw [Set_insert_no_evict hm2 (by norm_num) vb]
    simp [mapSet, mapDel, hab]
  have hm3 : mapGet [(b, 1), (a, 0)] c = none := by
    rw [mapGet_cons, if_neg hbc, mapGet_cons, if_neg hac, mapGet_nil]
  have e3 : (Cache.Set
      { queue := [⟨1, ⟨b, vb⟩⟩, ⟨0, ⟨a, va⟩⟩], lookup := [(b, 1), (a, 0)], capacity := 3, nextId := 2 } c vc) =
      ({ queue := [⟨2, ⟨c, vc⟩⟩, ⟨1, ⟨b, vb⟩⟩, ⟨0, ⟨a, va⟩⟩], lookup := [(c, 2), (b, 1), (a, 0)], capacity := 3, nextId := 3 }, []) := by
    rw [Set_insert_no_evict hm3 (by norm_num) vc]
    simp [mapSet, mapDel, hac, hbc]
  simp only [e1, e2, e3]

/-! ### ListKeys and the claim-level list-index invariant -/

theorem listKeysFrom_eq_map (q : List (Element K V)) :
    listKeysFrom q = q.map fun el => el.value.key := by
  induction q with
  | nil => rfl
  | cons el rest ih => simp [listKeysFrom, ih]

/-- The invariant exactly as the specification states it: no duplicate keys in
the recency list, a key is in the lookup index if and only if an entry with
that key is in the list, and the index maps each key to that entry's node. -/
def IndexListInv (c : Cache K V) : Prop :=
  (c.queue.map fun el => el.value.key).Nodup ∧
  (∀ k : K, (∃ id, mapGet c.lookup k = some id) ↔ ∃ el ∈ c.queue, el.value.key = k) ∧
  (∀ k id, mapGet c.lookup k = some id → ∃ el ∈ c.queue, el.id = id ∧ el.value.key = k)

theorem indexListInv_of_wf {c : Cache K V} (h : Wf c) : IndexListInv c := by
  obtain ⟨h1, h2, h3, h4, h5, h6⟩ := h
  refine ⟨h3, ?_, ?_⟩
  · intro k
    constructor
    · rintro ⟨id, hid⟩
      obtain ⟨el, hel, _, hk⟩ := h5 _ (mapGet_eq_some_mem hid)
      exact ⟨el, hel, hk⟩
    · rintro ⟨el, hel, hk⟩
      have hmem := h6 el hel
      rw [hk] at hmem
      exact ⟨el.id, mapGet_of_mem h4 hmem⟩
  · intro k id hid
    exact h5 _ (mapGet_eq_some_mem hid)

/-! ## Claim theorems -/

/-- C1: the specification says `Get(key)` returns the stored value for a
present key.  The source instead returns `item.Value`, the `*entry` pair
itself: after `Set(1, 100)` on a capacity-1 cache, `Get 1` yields a reference
to the entry `⟨1, 100⟩` together with `found = true`, and not the stored
value `100`.  The absent-key half of the claim does hold: `Get 2` returns the
zero value with `found = false` and leaves the cache unchanged, and a present
key is moved to the front.  This theorem evaluates the embedding at the
failing input. -/
theorem c1_get_returns_entry_reference :
    ((((NewCache Nat Nat 1).Set 1 100).1.Get 1).2 = (GoVal.entryRef ⟨1, 100⟩, true)) ∧
    ((((NewCache Nat Nat 1).Set 1 100).1.Get 1).2.1 ≠ GoVal.val 100) ∧
    ((((NewCache Nat Nat 1).Set 1 100).1.Get 2).2 = (GoVal.goNil, false)) ∧
    ((((NewCache Nat Nat 1).Set 1 100).1.Get 2).1 = ((NewCache Nat Nat 1).Set 1 100).1) := by
  decide

/-- C2: for a cache constructed with a positive capacity, after every `Set`
call of an arbitrary finite sequence the number of stored entries is at most
the capacity (every prefix of a sequence is itself a sequence, so the bound
after each intermediate call is the instance of this theorem for that
prefix). -/
theorem c2_capacity_invariant {K V : Type} [DecidableEq K] [DecidableEq V] (cap : Int)
    (hcap : 1 ≤ cap) (ops : List (K × V)) :
    ((applySets (NewCache K V cap) ops).queue.length : Int) ≤ cap := by
  have h0 := wf_NewCache K V cap
  have hle : (((NewCache K V cap).queue.length : Nat) : Int) ≤ (NewCache K V cap).capacity := by
    simp [NewCache]
    omega
  have hres := applySets_wf_len h0 hle ops
  rw [applySets_capacity] at hres
  exact hres.2

/-- C2 witness: the hypothesis `1 ≤ cap` is satisfiable and the theorem
applies at capacity 1 with two insertions. -/
theorem c2_capacity_invariant_witness :
    (1 : Int) ≤ 1 ∧
      ((applySets (NewCache Nat Nat 1) [(1, 10), (2, 20)]).queue.length : Int) ≤ 1 :=
  ⟨by decide, c2_capacity_invariant 1 (by decide) [(1, 10), (2, 20)]⟩

/-- C3: each public operation (`Set`, `Get`, `Remove`, `RemoveOldest`)
preserves the representation invariant `Wf`, and `Wf` entails the invariant
exactly as the specification words it (`IndexListInv`): a key is in the
lookup index iff exactly one entry with that key is in the recency list, the
index maps the key to that entry's node, and the list has no duplicate keys.
`ListKeys` does not mutate the cache at all in the embedding (it is a pure
function of the state), so it preserves every invariant trivially. -/
theorem c3_operations_preserve_invariant (c : Cache K V) (h : Wf c) (k : K) (v : V) :
    (Wf (c.Set k v).1 ∧ IndexListInv (c.Set k v).1) ∧
    (Wf (c.Get k).1 ∧ IndexListInv (c.Get k).1) ∧
    (Wf (c.Remove k).1 ∧ IndexListInv (c.Remove k).1) ∧
    (Wf c.RemoveOldest.1 ∧ IndexListInv c.RemoveOldest.1) ∧
    IndexListInv c :=
  ⟨⟨wf_Set h k v, indexListInv_of_wf (wf_Set h k v)⟩,
   ⟨wf_Get h k, indexListInv_of_wf (wf_Get h k)⟩,
   ⟨wf_Remove h k, indexListInv_of_wf (wf_Remove h k)⟩,
   ⟨wf_RemoveOldest h, indexListInv_of_wf (wf_RemoveOldest h)⟩,
   indexListInv_of_wf h⟩

/-- C3 witness: the invariant holds of a concrete cache and the theorem
applies there. -/
theorem c3_operations_preserve_invariant_witness :
    Wf (NewCache Nat Nat 2) ∧
    ((Wf ((NewCache Nat Nat 2).Set 1 10).1 ∧ IndexListInv ((NewCache Nat Nat 2).Set 1 10).1) ∧
     (Wf ((NewCache Nat Nat 2).Get 1).1 ∧ IndexListInv ((NewCache Nat Nat 2).Get 1).1) ∧
     (Wf ((NewCache Nat Nat 2).Remove 1).1 ∧ IndexListInv ((NewCache Nat Nat 2).Remove 1).1) ∧
     (Wf (NewCache Nat Nat 2).RemoveOldest.1 ∧ IndexListInv (NewCache Nat Nat 2).RemoveOldest.1) ∧
     IndexListInv (NewCache Nat Nat 2)) :=
  ⟨by decide, c3_operations_preserve_invariant (NewCache Nat Nat 2) (by decide) 1 10⟩

/-- C7: on a capacity-2 cache, `Set a; Set b; Get a; Set c` evicts exactly
the entry for `b` (the eviction callback fires once, with `b`'s key and
value), while `a` and `c` remain present, because `Get a` promoted `a`.
Keys/values are `a = 1 ↦ 10`, `b = 2 ↦ 20`, `c = 3 ↦ 30`. -/
theorem c7_recency_eviction :
    (((((NewCache Nat Nat 2).Set 1 10).1.Set 2 20).1.Get 1).1.Set 3 30).2 = [(2, 20)] ∧
    ((((((NewCache Nat Nat 2).Set 1 10).1.Set 2 20).1.Get 1).1.Set 3 30).1.Get 2).2.2 = false ∧
    ((((((NewCache Nat Nat 2).Set 1 10).1.Set 2 20).1.Get 1).1.Set 3 30).1.Get 1).2.2 = true ∧
    ((((((NewCache Nat Nat 2).Set 1 10).1.Set 2 20).1.Get 1).1.Set 3 30).1.Get 3).2.2 = true := by
  decide

/-- C10: with capacity 0 every reachable cache state is empty, so every
`Set k v` is on an absent key; it pushes the fresh entry and then immediately
evicts exactly that just-inserted entry, invoking the eviction callback with
exactly `(k, v)`, and leaves the cache empty. -/
theorem c10_capacity_zero {K V : Type} [DecidableEq K] [DecidableEq V]
    (ops : List (K × V)) (k : K) (v : V) :
    mapGet (applySets (NewCache K V 0) ops).lookup k = none ∧
    (applySets (NewCache K V 0) ops).Set k v =
      ({ queue := [], lookup := [], capacity := 0,
         nextId := (applySets (NewCache K V 0) ops).nextId + 1 }, [(k, v)]) := by
  obtain ⟨hq, hl, hc⟩ := applySets_empty_zero ops (NewCache K V 0) rfl rfl rfl
  constructor
  · rw [hl]
    rfl
  · exact Set_empty_zero _ hq hl hc k v

/-- C4: on a cache with capacity at least 1, `Set k v1; Set k v2` leaves
exactly one entry for `k`, holding `v2`, at the most-recently-used (front)
position, and the second `Set` invokes the eviction callback zero times. -/
theorem c4_update_in_place (c : Cache K V) (h : Wf c) (hcap : 1 ≤ c.capacity)
    (k : K) (v1 v2 : V) :
    (((c.Set k v1).1.Set k v2).1.queue.head?.map Element.value = some ⟨k, v2⟩) ∧
    (((((c.Set k v1).1.Set k v2).1.queue.filter fun el =>
        decide (el.value.key = k)).length) = 1) ∧
    (((c.Set k v1).1.Set k v2).2 = []) := by
  have h1 := wf_Set h k v1
  obtain ⟨id1, rest1, hq1, hget1⟩ := Set_front h hcap k v1
  have hcap1 : 1 ≤ (c.Set k v1).1.capacity := by rw [Set_capacity]; exact hcap
  obtain ⟨id2, rest2, hq2, hget2⟩ := Set_front h1 hcap1 k v2
  have h2 := wf_Set h1 k v2
  refine ⟨?_, ?_, Set_events_update hget1 v2⟩
  · rw [hq2]
    rfl
  · have hel : (⟨id2, ⟨k, v2⟩⟩ : Element K V) ∈ ((c.Set k v1).1.Set k v2).1.queue := by
      rw [hq2]
      exact List.mem_cons_self _ _
    have hcount := count_key_eq_one h2.2.2.1 h2.1 hel
    simpa using hcount

/-- C4 witness: the hypotheses hold of a concrete capacity-2 cache and the
theorem applies there with `k = 5`, `v1 = 7`, `v2 = 9`. -/
theorem c4_update_in_place_witness :
    (Wf (NewCache Nat Nat 2) ∧ 1 ≤ (NewCache Nat Nat 2).capacity) ∧
    ((((NewCache Nat Nat 2).Set 5 7).1.Set 5 9).1.queue.head?.map Element.value =
        some ⟨5, 9⟩) ∧
    ((((((NewCache Nat Nat 2).Set 5 7).1.Set 5 9).1.queue.filter fun el =>
        decide (el.value.key = 5)).length) = 1) ∧
    ((((NewCache Nat Nat 2).Set 5 7).1.Set 5 9).2 = []) :=
  ⟨⟨by decide, by decide⟩,
   c4_update_in_place (NewCache Nat Nat 2) (by decide) (by decide) 5 7 9⟩

/-- C5: `Remove k` with `k` present deletes the entry from both the recency
list and the lookup index, returns the stored value with `true`, and reports
no eviction-callback invocation (empty event list); with `k` absent it
returns the zero value with `false` and changes nothing.  `RemoveOldest` on a
non-empty cache invokes the eviction callback exactly once, and never on an
empty cache. -/
theorem c5_remove_semantics (c : Cache K V) (h : Wf c) (k : K) :
    (∀ id, mapGet c.lookup k = some id →
      ∃ el ∈ c.queue, el.id = id ∧ el.value.key = k ∧
        c.Remove k =
          ({ c with queue := c.queue.filter fun e => decide (e.id ≠ id),
                    lookup := mapDel c.lookup k },
           (GoVal.val el.value.value, true), []) ∧
        (∀ e ∈ (c.Remove k).1.queue, e.value.key ≠ k) ∧
        mapGet (c.Remove k).1.lookup k = none) ∧
    (mapGet c.lookup k = none → c.Remove k = (c, (GoVal.goNil, false), [])) ∧
    (c.queue ≠ [] → c.RemoveOldest.2.2.length = 1) ∧
    (c.queue = [] → c.RemoveOldest.2.2 = []) := by
  refine ⟨?_, ?_, ?_, ?_⟩
  · intro id hm
    obtain ⟨el, hel, hid, hkey⟩ := mapGet_some_elem h hm
    have hf : findElem c.queue id = some el := by
      rw [← hid]
      exact findElem_of_mem h.1 hel
    have hrem : c.Remove k =
        ({ c with queue := c.queue.filter fun e => decide (e.id ≠ id),
                  lookup := mapDel c.lookup k },
         (GoVal.val el.value.value, true), []) := by
      unfold Cache.Remove
      rw [hm]
      dsimp only
      rw [hf]
    refine ⟨el, hel, hid, hkey, hrem, ?_, ?_⟩
    · intro e he hek
      rw [hrem] at he
      obtain ⟨hem, hne⟩ := List.mem_filter.mp he
      simp only [decide_eq_true_eq] at hne
      have heq : e = el := key_inj h.2.2.1 hem hel (by rw [hek, hkey])
      rw [heq] at hne
      exact hne hid
    · rw [hrem]
      exact mapGet_mapDel_self
  · intro hm
    unfold Cache.Remove
    rw [hm]
  · intro hne
    obtain ⟨l2, a, hq⟩ := (List.eq_nil_or_concat' c.queue).resolve_left hne
    rw [show c.RemoveOldest = c.removeOldest from rfl, removeOldest_concat h hq]
    rfl
  · intro hq
    rw [show c.RemoveOldest = c.removeOldest from rfl]
    unfold Cache.removeOldest
    rw [show c.queue.getLast? = none from by rw [hq]; rfl]

/-- C5 witness: the hypothesis holds of a concrete one-entry cache and the
theorem applies there with `k = 1`. -/
theorem c5_remove_semantics_witness :
    Wf ((NewCache Nat Nat 2).Set 1 10).1 ∧
    ((∀ id, mapGet ((NewCache Nat Nat 2).Set 1 10).1.lookup 1 = some id →
      ∃ el ∈ ((NewCache Nat Nat 2).Set 1 10).1.queue, el.id = id ∧ el.value.key = 1 ∧
        ((NewCache Nat Nat 2).Set 1 10).1.Remove 1 =
          ({ ((NewCache Nat Nat 2).Set 1 10).1 with
              queue := ((NewCache Nat Nat 2).Set 1 10).1.queue.filter fun e =>
                decide (e.id ≠ id),
              lookup := mapDel ((NewCache Nat Nat 2).Set 1 10).1.lookup 1 },
           (GoVal.val el.value.value, true), []) ∧
        (∀ e ∈ (((NewCache Nat Nat 2).Set 1 10).1.Remove 1).1.queue, e.value.key ≠ 1) ∧
        mapGet (((NewCache Nat Nat 2).Set 1 10).1.Remove 1).1.lookup 1 = none) ∧
     (mapGet ((NewCache Nat Nat 2).Set 1 10).1.lookup 1 = none →
       ((NewCache Nat Nat 2).Set 1 10).1.Remove 1 =
         (((NewCache Nat Nat 2).Set 1 10).1, (GoVal.goNil, false), [])) ∧
     (((NewCache Nat Nat 2).Set 1 10).1.queue ≠ [] →
       ((NewCache Nat Nat 2).Set 1 10).1.RemoveOldest.2.2.length = 1) ∧
     (((NewCache Nat Nat 2).Set 1 10).1.queue = [] →
       ((NewCache Nat Nat 2).Set 1 10).1.RemoveOldest.2.2 = [])) :=
  ⟨by decide, c5_remove_semantics ((NewCache Nat Nat 2).Set 1 10).1 (by decide) 1⟩

/-- C6: `RemoveOldest` on a non-empty cache removes the least-recently-used
(back) entry from both the list and the index, invokes the eviction callback
with that entry's key and value, and returns its value with `true`; on an
empty cache it returns the zero value with `false`.  Moreover, after
inserting three distinct keys `a, b, c` into a capacity-3 cache with no
intervening `Get`s, three successive `RemoveOldest` calls return the entries
for `a`, then `b`, then `c` (each time both as the returned value and as the
callback's argument). -/
theorem c6_removeOldest_semantics (c0 : Cache K V) (h : Wf c0)
    (a b c : K) (va vb vc : V) (hab : a ≠ b) (hac : a ≠ c) (hbc : b ≠ c) :
    (∀ l tail, c0.queue = l ++ [tail] →
      c0.RemoveOldest =
        ({ c0 with queue := l, lookup := mapDel c0.lookup tail.value.key },
         (GoVal.val tail.value.value, true), [(tail.value.key, tail.value.value)]) ∧
      mapGet (mapDel c0.lookup tail.value.key) tail.value.key = none) ∧
    (c0.queue = [] → c0.RemoveOldest = (c0, (GoVal.goNil, false), [])) ∧
    (((((NewCache K V 3).Set a va).1.Set b vb).1.Set c vc).1.RemoveOldest.2 =
       ((GoVal.val va, true), [(a, va)])) ∧
    (((((NewCache K V 3).Set a va).1.Set b vb).1.Set c
        vc).1.RemoveOldest.1.RemoveOldest.2 =
       ((GoVal.val vb, true), [(b, vb)])) ∧
    (((((NewCache K V 3).Set a va).1.Set b vb).1.Set c
        vc).1.RemoveOldest.1.RemoveOldest.1.RemoveOldest.2 =
       ((GoVal.val vc, true), [(c, vc)])) := by
  have hs := threeInserts K V a b c va vb vc hab hac hbc
  have w3 : Wf ((((NewCache K V 3).Set a va).1.Set b vb).1.Set c vc).1 :=
    wf_Set (wf_Set (wf_Set (wf_NewCache K V 3) a va) b vb) c vc
  rw [hs] at w3
  have r1 := removeOldest_concat w3
    (show _ = [(⟨2, ⟨c, vc⟩⟩ : Element K V), ⟨1, ⟨b, vb⟩⟩] ++ [⟨0, ⟨a, va⟩⟩] from rfl)
  have w2 := wf_removeOldest w3
  have r2 := removeOldest_concat w2
    (show _ = [(⟨2, ⟨c, vc⟩⟩ : Element K V)] ++ [⟨1, ⟨b, vb⟩⟩] from rfl)
  have w1 := wf_removeOldest w2
  have r3 := removeOldest_concat w1
    (show _ = ([] : List (Element K V)) ++ [⟨2, ⟨c, vc⟩⟩] from rfl)
  refine ⟨?_, ?_, ?_, ?_, ?_⟩
  · intro l tail hq
    rw [show c0.RemoveOldest = c0.removeOldest from rfl]
    exact ⟨removeOldest_concat h hq, mapGet_mapDel_self⟩
  · intro hq
    rw [show c0.RemoveOldest = c0.removeOldest from rfl]
    unfold Cache.removeOldest
    rw [show c0.queue.getLast? = none from by rw [hq]; rfl]
  · rw [hs]
    show (Cache.removeOldest _).2 = _
    rw [r1]
  · rw [hs]
    show ((Cache.removeOldest _).1.removeOldest).2 = _
    rw [r2]
  · rw [hs]
    show (((Cache.removeOldest _).1.removeOldest).1.removeOldest).2 = _
    rw [r3]

/-- C6 witness: the hypotheses hold of a concrete empty cache (with
`a, b, c = 1, 2, 3` pairwise distinct) and the theorem applies there. -/
theorem c6_removeOldest_semantics_witness :
    (Wf (NewCache Nat Nat 1) ∧ (1 : Nat) ≠ 2 ∧ (1 : Nat) ≠ 3 ∧ (2 : Nat) ≠ 3) ∧
    ((∀ l tail, (NewCache Nat Nat 1).queue = l ++ [tail] →
      (NewCache Nat Nat 1).RemoveOldest =
        ({ (NewCache Nat Nat 1) with
            queue := l,
            lookup := mapDel (NewCache Nat Nat 1).lookup tail.value.key },
         (GoVal.val tail.value.value, true), [(tail.value.key, tail.value.value)]) ∧
      mapGet (mapDel (NewCache Nat Nat 1).lookup tail.value.key) tail.value.key = none) ∧
    ((NewCache Nat Nat 1).queue = [] →
      (NewCache Nat Nat 1).RemoveOldest = (NewCache Nat Nat 1, (GoVal.goNil, false), [])) ∧
    (((((NewCache Nat Nat 3).Set 1 10).1.Set 2 20).1.Set 3 30).1.RemoveOldest.2 =
       ((GoVal.val 10, true), [(1, 10)])) ∧
    (((((NewCache Nat Nat 3).Set 1 10).1.Set 2 20).1.Set 3
        30).1.RemoveOldest.1.RemoveOldest.2 =
       ((GoVal.val 20, true), [(2, 20)])) ∧
    (((((NewCache Nat Nat 3).Set 1 10).1.Set 2 20).1.Set 3
        30).1.RemoveOldest.1.RemoveOldest.1.RemoveOldest.2 =
       ((GoVal.val 30, true), [(3, 30)]))) :=
  ⟨⟨by decide, by decide, by decide, by decide⟩,
   c6_removeOldest_semantics (NewCache Nat Nat 1) (by decide) 1 2 3 10 20 30
     (by decide) (by decide) (by decide)⟩

/-- C8: `ListKeys` returns exactly the keys currently stored (a key is in the
returned snapshot iff it is in the lookup index), without duplicates, in
recency order: it is the key sequence of the recency list, whose front is the
most recently used entry.  In particular after inserting three distinct keys
`a, b, c` with no `Get`s it returns `[c, b, a]`. -/
theorem c8_listKeys (c0 : Cache K V) (h : Wf c0)
    (a b c : K) (va vb vc : V) (hab : a ≠ b) (hac : a ≠ c) (hbc : b ≠ c) :
    (c0.ListKeys = c0.queue.map fun el => el.value.key) ∧
    (∀ k, k ∈ c0.ListKeys ↔ mapGet c0.lookup k ≠ none) ∧
    c0.ListKeys.Nodup ∧
    ((((NewCache K V 3).Set a va).1.Set b vb).1.Set c vc).1.ListKeys = [c, b, a] := by
  refine ⟨listKeysFrom_eq_map c0.queue, ?_, ?_, ?_⟩
  · intro k
    rw [show c0.ListKeys = _ from listKeysFrom_eq_map c0.queue]
    constructor
    · intro hk
      obtain ⟨el, hel, hke⟩ := List.mem_map.mp hk
      have hmem := h.2.2.2.2.2 el hel
      rw [hke] at hmem
      rw [mapGet_of_mem h.2.2.2.1 hmem]
      simp
    · intro hne
      obtain ⟨id, hid⟩ := Option.ne_none_iff_exists'.mp hne
      obtain ⟨el, hel, _, hkey⟩ := mapGet_some_elem h hid
      exact List.mem_map.mpr ⟨el, hel, hkey⟩
  · rw [show c0.ListKeys = _ from listKeysFrom_eq_map c0.queue]
    exact h.2.2.1
  · rw [threeInserts K V a b c va vb vc hab hac hbc]
    rfl

/-- C8 witness: the hypotheses hold of a concrete cache (with distinct keys
`1, 2, 3`) and the theorem applies there. -/
theorem c8_listKeys_witness :
    (Wf ((NewCache Nat Nat 2).Set 7 70).1 ∧
      (1 : Nat) ≠ 2 ∧ (1 : Nat) ≠ 3 ∧ (2 : Nat) ≠ 3) ∧
    ((((NewCache Nat Nat 2).Set 7 70).1.ListKeys =
        ((NewCache Nat Nat 2).Set 7 70).1.queue.map fun el => el.value.key) ∧
     (∀ k, k ∈ ((NewCache Nat Nat 2).Set 7 70).1.ListKeys ↔
        mapGet ((NewCache Nat Nat 2).Set 7 70).1.lookup k ≠ none) ∧
     ((NewCache Nat Nat 2).Set 7 70).1.ListKeys.Nodup ∧
     ((((NewCache Nat Nat 3).Set 1 10).1.Set 2 20).1.Set 3 30).1.ListKeys = [3, 2, 1]) :=
  ⟨⟨by decide, by decide, by decide, by decide⟩,
   c8_listKeys ((NewCache Nat Nat 2).Set 7 70).1 (by decide) 1 2 3 10 20 30
     (by decide) (by decide) (by decide)⟩

end Lru
